import Mathlib

/-!
Verification development for the PassTek password-analysis engine.

Go strings are modelled as lists of Unicode code points (`List Char`); the
byte length of a Go string (`len(s)`) is recovered by `utf8Len`, the sum of
the UTF-8 encoded sizes of its code points.  All inputs are assumed to be
valid UTF-8, as the spec requires of the password and hash files.  Go `int`
values are modelled as `Int`.
-/

namespace PassTek

/-- Converts a Lean string literal to the rune-list model of a Go string. -/
def gs (s : String) : List Char := s.data

/-- Number of bytes of the UTF-8 encoding of one code point. -/
def utf8CharSize (c : Char) : Nat :=
  if c.toNat < 0x80 then 1
  else if c.toNat < 0x800 then 2
  else if c.toNat < 0x10000 then 3
  else 4

/-- Byte length of a Go string, i.e. `len(s)` in Go. -/
def utf8Len (s : List Char) : Nat := (s.map utf8CharSize).sum

/-- Models `unicode.IsUpper` on ASCII and the Latin-1 block, which covers
every code point reachable from the analyzer's token alphabet and the
inputs exercised in this development. -/
def goIsUpper (c : Char) : Bool :=
  ('A' ≤ c && c ≤ 'Z') || (0xC0 ≤ c.toNat && c.toNat ≤ 0xDE && c.toNat != 0xD7)

/-- Models `unicode.IsLower` on ASCII and the Latin-1 block. -/
def goIsLower (c : Char) : Bool :=
  ('a' ≤ c && c ≤ 'z') ||
    (0xDF ≤ c.toNat && c.toNat ≤ 0xFF && c.toNat != 0xF7) || c.toNat == 0xB5

/-- Models `unicode.IsDigit` for the decimal digits that can occur here. -/
def goIsDigit (c : Char) : Bool := '0' ≤ c && c ≤ '9'

/-- `classifyChar` from the analysis package: `u`, `l`, `d` or `s`. -/
def classifyChar (c : Char) : Char :=
  if goIsUpper c then 'u'
  else if goIsLower c then 'l'
  else if goIsDigit c then 'd'
  else 's'

/-- `countCategories` from the analysis package: returns the Go byte length
of the password together with the number of distinct character categories
present. -/
def countCategories (password : List Char) : Nat × Nat :=
  let hasLower := password.any (fun c => classifyChar c = 'l')
  let hasUpper := password.any (fun c => classifyChar c = 'u')
  let hasDigit := password.any (fun c => classifyChar c = 'd')
  let hasSpecial := password.any (fun c => classifyChar c = 's')
  (utf8Len password,
    (if hasLower then 1 else 0) + (if hasUpper then 1 else 0) +
      (if hasDigit then 1 else 0) + (if hasSpecial then 1 else 0))

/-- Models `strings.ToLower` on the analyzer's token alphabet
(`[A-Za-z01345$!|@é]`), where only ASCII letters change case. -/
def toLowerGo (s : List Char) : List Char :=
  s.map fun c => if 'A' ≤ c && c ≤ 'Z' then Char.ofNat (c.toNat + 32) else c

/-- The `leetMap` substitution on a single rune: leet digits/symbols and
accented Latin letters map to their alphabetic base, everything else is
returned unchanged. -/
def unleetChar (c : Char) : Char :=
  if c = '0' then 'o' else if c = '1' then 'i' else if c = '3' then 'e'
  else if c = '4' then 'a' else if c = '5' then 's' else if c = '$' then 's'
  else if c = '!' then 'i' else if c = '|' then 'i' else if c = '@' then 'a'
  else if c = 'é' then 'e' else if c = 'è' then 'e' else if c = 'à' then 'a'
  else if c = 'ù' then 'u' else if c = 'ç' then 'c' else if c = 'ï' then 'i'
  else c

/-- `Unleet` from the analysis package: rune-wise leet normalization. -/
def Unleet (token : List Char) : List Char := token.map unleetChar

/-- Last-byte membership test of `truncateLeetSuffix`.  For valid UTF-8 the
final byte of the encoding equals one of these ASCII letters exactly when
the final rune does (continuation bytes are `0x80`–`0xBF`). -/
def leetSuffixByte (c : Char) : Bool :=
  c = 'i' || c = 'e' || c = 'a' || c = 's' || c = 'o'

/-- `truncateLeetSuffix` from the analysis package: drops the final
character when the token is at least 5 bytes long and ends in one of
`i,e,a,s,o`; otherwise returns the token unchanged. -/
def truncateLeetSuffix (token : List Char) : List Char :=
  if utf8Len token < 5 then token
  else
    match token.getLast? with
    | some c => if leetSuffixByte c then token.dropLast else token
    | none => token

/-- Membership in the token-extraction character class
`[A-Za-z01345$!|@é]` of `tokenRegex`. -/
def charInClass (c : Char) : Bool :=
  ('A' ≤ c && c ≤ 'Z') || ('a' ≤ c && c ≤ 'z') ||
  c = '0' || c = '1' || c = '3' || c = '4' || c = '5' ||
  c = '$' || c = '!' || c = '|' || c = '@' || c = 'é'

/-- Splits a line into its maximal runs of characters of the token class;
`acc` holds the current run in reverse. -/
def maxRunsAux : List Char → List Char → List (List Char)
  | [], acc => if acc.isEmpty then [] else [acc.reverse]
  | c :: cs, acc =>
    if charInClass c then maxRunsAux cs (c :: acc)
    else if acc.isEmpty then maxRunsAux cs [] else acc.reverse :: maxRunsAux cs []

/-- Models `tokenRegex.FindAllString(line, -1)` for the pattern
`[A-Za-z01345$!|@é]{4,}`: the maximal in-class runs of length at least 4,
in order of appearance. -/
def findAllTokens (line : List Char) : List (List Char) :=
  (maxRunsAux line []).filter (fun r => 4 ≤ r.length)

/-- An association-list model of a Go `map[K]int` histogram.  Go map
iteration order is unspecified; the model fixes insertion order, which is
immaterial to the claims proved here. -/
def histIncr {K : Type} [DecidableEq K] (m : List (K × Int)) (k : K) (v : Int) :
    List (K × Int) :=
  match m with
  | [] => [(k, v)]
  | (k', v') :: rest => if k' = k then (k', v' + v) :: rest else (k', v') :: histIncr rest k v

/-- Go map assignment `m[k] = v`: overwrites the binding when present. -/
def histSet {K : Type} [DecidableEq K] (m : List (K × Int)) (k : K) (v : Int) :
    List (K × Int) :=
  match m with
  | [] => [(k, v)]
  | (k', v') :: rest => if k' = k then (k', v) :: rest else (k', v') :: histSet rest k v

/-- Total count mass of a histogram. -/
def histSum {K : Type} (m : List (K × Int)) : Int := (m.map Prod.snd).sum

/-- `utils.Entry`: a key-count pair taken from a `map[string]int`. -/
structure Entry where
  Key : List Char
  Value : Int
  deriving DecidableEq, Inhabited

/-- Total count mass of a ranked entry list. -/
def valsum (l : List Entry) : Int := (l.map Entry.Value).sum

/-- Inserts an entry into a list already sorted by descending `Value`. -/
def insertDesc (e : Entry) : List Entry → List Entry
  | [] => [e]
  | x :: xs => if x.Value < e.Value then e :: x :: xs else x :: insertDesc e xs

/-- Sorts entries by `Value` from highest to lowest (the comparator of
`sort.Slice` in `utils.SortMapByValueDesc`; the Go sort is unstable, and
on the distinct counts used below every order-sensitive fact is
independent of the tie-break). -/
def sortByValueDesc (l : List Entry) : List Entry := l.foldr insertDesc []

/-- `utils.SortMapByValueDesc`: turns a histogram into a count-ranked
entry list. -/
def SortMapByValueDesc (m : List (List Char × Int)) : List Entry :=
  sortByValueDesc (m.map fun p => ⟨p.1, p.2⟩)

/-- Rune-level prefix test used to model Go byte-level `strings.Contains`
(for valid UTF-8, byte-level containment of one valid string in another
coincides with rune-level containment, since UTF-8 is self-synchronizing
and prefix-free per code point). -/
def isPrefixCh : List Char → List Char → Bool
  | [], _ => true
  | _ :: _, [] => false
  | a :: as, b :: bs => a = b && isPrefixCh as bs

/-- Models `strings.Contains s sub`: `sub` occurs contiguously in `s`. -/
def goContains (s sub : List Char) : Bool :=
  match s with
  | [] => isPrefixCh sub []
  | c :: rest => isPrefixCh sub (c :: rest) || goContains rest sub

/-- First index `j` with `j0 ≤ j < j0 + fuel` satisfying `p`. -/
def findIdxFrom (p : Nat → Bool) : Nat → Nat → Option Nat
  | 0, _ => none
  | n + 1, j => if p j then some j else findIdxFrom p n (j + 1)

/-- The state of `MergeIntoSmaller`'s scan: each entry of the Go slice
paired with its `skip[i]` flag. -/
def MergeState := List (Entry × Bool)

/-- The inner-loop condition of `MergeIntoSmaller` at outer index `i` and
inner index `j`: `j ≠ i`, `j` not skipped, and entry `i`'s key contains
entry `j`'s key. -/
def targetPred (st : List (Entry × Bool)) (i j : Nat) : Bool :=
  (j != i) && !((st.getD j default).2) &&
    goContains ((st.getD i default).1.Key) ((st.getD j default).1.Key)

/-- The inner loop of `MergeIntoSmaller`: the first index `j` into which
entry `i` merges, if any. -/
def findTarget (st : List (Entry × Bool)) (i : Nat) : Option Nat :=
  findIdxFrom (targetPred st i) st.length 0

/-- The updated cell of the Go assignment
`entities[j].Value += entities[i].Value`: entry `j` with entry `i`'s value
added, skip flag unchanged. -/
def mergedCell (st : List (Entry × Bool)) (i j : Nat) : Entry × Bool :=
  (⟨(st.getD j default).1.Key,
    (st.getD j default).1.Value + (st.getD i default).1.Value⟩,
   (st.getD j default).2)

/-- One outer-loop iteration of `MergeIntoSmaller`: if `i` is not skipped
and a target `j` exists, add `i`'s value to `j` and mark `i` skipped. -/
def mergeStep (st : List (Entry × Bool)) (i : Nat) : List (Entry × Bool) :=
  if (st.getD i default).2 then st
  else
    match findTarget st i with
    | none => st
    | some j =>
      let st' := st.set j (mergedCell st i j)
      st'.set i ((st'.getD i default).1, true)

/-- `utils.MergeIntoSmaller`: the quadratic substring-absorption pass;
finally the non-skipped entries are collected in order. -/
def MergeIntoSmaller (entities : List Entry) : List Entry :=
  let st := entities.map fun e => (e, false)
  let st' := (List.range st.length).foldl mergeStep st
  (st'.filter fun x => !x.2).map fun x => x.1

/-- `getMaxCount` from the analysis package: the `Value` of the first
entry (`entries[0].Value`), or 0 on the empty list. -/
def getMaxCount : List Entry → Int
  | [] => 0
  | e :: _ => e.Value

/-- One step of building `truncatedCounts` in `AnalyzePasswords`: counts
`val` under the suffix-truncated key when the truncated form still meets
the minimum length, else under the original key. -/
def truncStep (minOcc : Int) (acc : List (List Char × Int)) (p : List Char × Int) :
    List (List Char × Int) :=
  let base := truncateLeetSuffix p.1
  if minOcc ≤ (utf8Len base : Int) then histIncr acc base p.2 else histIncr acc p.1 p.2

/-- The `truncatedCounts` map of `AnalyzePasswords` (Strategy B's
re-aggregation). -/
def truncAgg (minOcc : Int) (m : List (List Char × Int)) : List (List Char × Int) :=
  m.foldl (truncStep minOcc) []

/-- The final `TokenCount` rebuild of `AnalyzePasswords`: each chosen
entry is assigned into a fresh map. -/
def rebuild (entries : List Entry) : List (List Char × Int) :=
  entries.foldl (fun acc e => histSet acc e.Key e.Value) []

/-- Lines 84–109 of `AnalyzePasswords`: runs both consolidation
strategies over the completed token histogram, keeps Strategy B exactly
when `getMaxCount truncatedEntries > getMaxCount sortedEntries`, and
rebuilds the `TokenCount` map from the chosen entries. -/
def consolidate (minOcc : Int) (tokenCount : List (List Char × Int)) :
    List (List Char × Int) :=
  let sortedEntries := MergeIntoSmaller (SortMapByValueDesc tokenCount)
  let truncatedEntries := MergeIntoSmaller (SortMapByValueDesc (truncAgg minOcc tokenCount))
  let chosenEntries :=
    if getMaxCount sortedEntries < getMaxCount truncatedEntries
    then truncatedEntries else sortedEntries
  rebuild chosenEntries

/-- `utils.Stats`, restricted to the fields the password analyzer
computes. -/
structure Stats where
  CrackedCount : Int
  Lengths : List (Nat × Int)
  Complexity : List (Nat × Int)
  Patterns : List (List Char × Int)
  Mostreuse : List (List Char × Int)
  TokenCount : List (List Char × Int)
  CrackedReuseCount : Int
  deriving DecidableEq

/-- The zero-initialized `Stats` of `AnalyzePasswords`. -/
def emptyStats : Stats := ⟨0, [], [], [], [], [], 0⟩

/-- The token-counting body of `AnalyzePasswords`' inner loop: lowercase,
unleet, and count the token when its byte length reaches
`minCharOccurences`. -/
def tokenStep (minOcc : Int) (s : Stats) (matched : List Char) : Stats :=
  let unLeeted := Unleet (toLowerGo matched)
  if minOcc ≤ (utf8Len unLeeted : Int) then
    { s with TokenCount := histIncr s.TokenCount unLeeted 1 }
  else s

/-- The per-line body of `AnalyzePasswords`' scan loop, for a non-empty
line. -/
def processLine (minOcc : Int) (s : Stats) (line : List Char) : Stats :=
  let matchingStrings := findAllTokens line
  let lc := countCategories line
  let pattern := line.map classifyChar
  let s1 : Stats :=
    { s with
      Lengths := histIncr s.Lengths lc.1 1
      Complexity := histIncr s.Complexity lc.2 1
      Mostreuse := histIncr s.Mostreuse line 1
      CrackedCount := s.CrackedCount + 1
      Patterns := histIncr s.Patterns pattern 1 }
  matchingStrings.foldl (tokenStep minOcc) s1

/-- One iteration of `AnalyzePasswords`' scan loop: skips the empty line,
otherwise processes it and bumps `lineCount`. -/
def scanStep (minOcc : Int) (st : Stats × Nat) (line : List Char) : Stats × Nat :=
  if line = [] then st else (processLine minOcc st.1 line, st.2 + 1)

/-- The scan loop of `AnalyzePasswords`: folds over the file's lines,
skipping empty ones, and tracks `lineCount`. -/
def scanLines (minOcc : Int) (lines : List (List Char)) : Stats × Nat :=
  lines.foldl (scanStep minOcc) (emptyStats, 0)

/-- The error message of the insufficient-data hard failure. -/
def insufficientMsg : List Char := gs "Password file must contain at least 2 passwords"

/-- The `CrackedReuseCount` computation: total count of passwords whose
occurrence count exceeds 1. -/
def reuseCount (m : List (List Char × Int)) : Int :=
  m.foldl (fun acc p => if 1 < p.2 then acc + p.2 else acc) 0

/-- `AnalyzePasswords`, with the already-read lines of the password file
in place of the filename (`os.Open` errors are outside the model) and the
returned `error` modelled as an `Option`.  Note the Go function returns
the populated `data` value in the insufficient-data case as well. -/
def analyzePasswords (minOcc : Int) (lines : List (List Char)) :
    Stats × Option (List Char) :=
  let scanned := scanLines minOcc lines
  let st : Stats := { scanned.1 with TokenCount := consolidate minOcc scanned.1.TokenCount }
  if scanned.2 < 2 then (st, some insufficientMsg)
  else ({ st with CrackedReuseCount := reuseCount st.Mostreuse }, none)

/-- Contribution of one scan-state cell to the surviving count mass:
skipped entries contribute nothing. -/
def contribV (x : Entry × Bool) : Int := if x.2 then 0 else x.1.Value

/-- Count mass of the non-skipped entries of a scan state. -/
def msum (st : List (Entry × Bool)) : Int := (st.map contribV).sum

/-- The keys of a scan state, in slice order. -/
def keysOf (st : List (Entry × Bool)) : List (List Char) := st.map fun x => x.1.Key

/-- Modelled from the spec's selection rule ("compute the maximum count
across each strategy's surviving entries"): the true maximum `Value` of an
entry list, 0 on the empty list.  Compare with `getMaxCount`, which is
what the code computes. -/
def maxValueSpec : List Entry → Int
  | [] => 0
  | e :: rest => max e.Value (maxValueSpec rest)

/-- `utils.HashStats`, restricted to the fields `AnalyzeHashes`
computes. -/
structure HashStats where
  TotalNTLMHashes : Int
  UniqueNTLMHashes : Int
  ReusedNTLMHashes : Int
  IsLM : Int
  EmptyNTLMHashes : Int
  deriving DecidableEq

/-- Models `unicode.IsSpace` on the ASCII whitespace characters. -/
def goIsSpace (c : Char) : Bool :=
  c = ' ' || c = '\t' || c = '\n' || (c.toNat == 11) || (c.toNat == 12) || c = '\r'

/-- Models `strings.TrimSpace`. -/
def trimSpace (s : List Char) : List Char :=
  ((s.dropWhile goIsSpace).reverse.dropWhile goIsSpace).reverse

/-- Models `strings.Split s sep` for a one-character separator. -/
def splitGo (s : List Char) (sep : Char) : List (List Char) :=
  match s with
  | [] => [[]]
  | c :: rest =>
    let r := splitGo rest sep
    if c = sep then [] :: r
    else
      match r with
      | [] => [[c]]
      | t :: ts => (c :: t) :: ts

/-- Models `strings.EqualFold` on ASCII (the hash constants and fields
compared are hexadecimal ASCII). -/
def equalFold (a b : List Char) : Bool := toLowerGo a = toLowerGo b

/-- The canonical disabled LM hash constant. -/
def emptyLM : List Char := gs "aad3b435b51404eeaad3b435b51404ee"

/-- The NTLM hash of the empty string. -/
def emptyNTLM : List Char := gs "31d6cfe0d16ae931b73c59d7e0c089c0"

/-- The per-line body of `AnalyzeHashes`: skips blank and malformed
(< 4 colon-delimited fields) lines, otherwise updates the counters and
the primary-hash occurrence histogram. -/
def hashStep (st : HashStats × List (List Char × Int)) (rawLine : List Char) :
    HashStats × List (List Char × Int) :=
  let line := trimSpace rawLine
  if line = [] then st
  else
    let parts := splitGo line ':'
    if parts.length < 4 then st
    else
      let lm := parts.getD 2 []
      let ntlm := parts.getD 3 []
      let s0 := st.1
      let s1 := if ntlm = [] || equalFold ntlm emptyNTLM then
          { s0 with EmptyNTLMHashes := s0.EmptyNTLMHashes + 1 } else s0
      let s2 := { s1 with TotalNTLMHashes := s1.TotalNTLMHashes + 1 }
      let seen := histIncr st.2 ntlm 1
      let s3 := if lm ≠ [] && !equalFold lm emptyLM then
          { s2 with IsLM := s2.IsLM + 1 } else s2
      (s3, seen)

/-- Number of distinct primary-hash values occurring exactly once. -/
def uniqueCount (seen : List (List Char × Int)) : Int :=
  seen.foldl (fun acc p => if p.2 = 1 then acc + 1 else acc) 0

/-- `AnalyzeHashes`, with the already-read lines of the hash file in
place of the filename.  After the scan, `unique` is the number of
primary-hash values seen exactly once and `reused = total - unique`. -/
def analyzeHashes (lines : List (List Char)) : HashStats :=
  let scanned := lines.foldl hashStep (⟨0, 0, 0, 0, 0⟩, [])
  let stats := scanned.1
  let u := uniqueCount scanned.2
  { stats with
    UniqueNTLMHashes := u
    ReusedNTLMHashes := stats.TotalNTLMHashes - u }

/-! ## Basic lemmas -/

theorem unleetChar_idem (c : Char) : unleetChar (unleetChar c) = unleetChar c := by
  by_cases h1 : c = '0'
  · subst h1; decide
  by_cases h2 : c = '1'
  · subst h2; decide
  by_cases h3 : c = '3'
  · subst h3; decide
  by_cases h4 : c = '4'
  · subst h4; decide
  by_cases h5 : c = '5'
  · subst h5; decide
  by_cases h6 : c = '$'
  · subst h6; decide
  by_cases h7 : c = '!'
  · subst h7; decide
  by_cases h8 : c = '|'
  · subst h8; decide
  by_cases h9 : c = '@'
  · subst h9; decide
  by_cases h10 : c = 'é'
  · subst h10; decide
  by_cases h11 : c = 'è'
  · subst h11; decide
  by_cases h12 : c = 'à'
  · subst h12; decide
  by_cases h13 : c = 'ù'
  · subst h13; decide
  by_cases h14 : c = 'ç'
  · subst h14; decide
  by_cases h15 : c = 'ï'
  · subst h15; decide
  have hc : unleetChar c = c := by
    unfold unleetChar
    rw [if_neg h1, if_neg h2, if_neg h3, if_neg h4, if_neg h5, if_neg h6, if_neg h7,
      if_neg h8, if_neg h9, if_neg h10, if_neg h11, if_neg h12, if_neg h13, if_neg h14,
      if_neg h15]
  rw [hc]
  exact hc

/-- C8: the leet-normalization function `Unleet` is idempotent: for every
input string `s`, `Unleet (Unleet s) = Unleet s`. -/
theorem Unleet_idempotent (s : List Char) : Unleet (Unleet s) = Unleet s := by
  induction s with
  | nil => rfl
  | cons c cs ih =>
    show unleetChar (unleetChar c) :: Unleet (Unleet cs) = unleetChar c :: Unleet cs
    rw [unleetChar_idem, ih]

/-- C5: for every hash file, the statistics returned by `AnalyzeHashes`
satisfy `unique + reused = total`, where the totals are accumulated over
the records with at least 4 colon-delimited fields, `unique` counts the
distinct primary-hash values occurring exactly once, and `reused` is
`total - unique`. -/
theorem analyzeHashes_unique_add_reused_eq_total (lines : List (List Char)) :
    (analyzeHashes lines).UniqueNTLMHashes + (analyzeHashes lines).ReusedNTLMHashes =
      (analyzeHashes lines).TotalNTLMHashes := by
  unfold analyzeHashes
  dsimp only
  omega

theorem one_le_utf8CharSize (c : Char) : 1 ≤ utf8CharSize c := by
  unfold utf8CharSize
  split_ifs <;> omega

theorem two_le_utf8CharSize (c : Char) (h : 0x80 ≤ c.toNat) : 2 ≤ utf8CharSize c := by
  unfold utf8CharSize
  split_ifs <;> omega

theorem length_le_utf8Len (s : List Char) : s.length ≤ utf8Len s := by
  induction s with
  | nil => simp [utf8Len]
  | cons c cs ih =>
    simp only [utf8Len, List.map_cons, List.sum_cons, List.length_cons] at ih ⊢
    have := one_le_utf8CharSize c
    omega

theorem utf8Len_gt_of_multibyte (s : List Char) (c : Char) (hc : c ∈ s)
    (hb : 0x80 ≤ c.toNat) : s.length < utf8Len s := by
  induction s with
  | nil => cases hc
  | cons d cs ih =>
    simp only [utf8Len, List.map_cons, List.sum_cons, List.length_cons]
    cases List.mem_cons.mp hc with
    | inl h =>
      subst h
      have h1 := two_le_utf8CharSize c hb
      have h2 := length_le_utf8Len cs
      simp only [utf8Len] at h2
      omega
    | inr h =>
      have h1 := ih h
      have h2 := one_le_utf8CharSize d
      simp only [utf8Len] at h1
      omega

theorem tokenStep_Lengths (minOcc : Int) (s : Stats) (m : List Char) :
    (tokenStep minOcc s m).Lengths = s.Lengths := by
  unfold tokenStep
  dsimp only
  split <;> rfl

theorem tokenStep_Complexity (minOcc : Int) (s : Stats) (m : List Char) :
    (tokenStep minOcc s m).Complexity = s.Complexity := by
  unfold tokenStep
  dsimp only
  split <;> rfl

theorem tokenStep_CrackedCount (minOcc : Int) (s : Stats) (m : List Char) :
    (tokenStep minOcc s m).CrackedCount = s.CrackedCount := by
  unfold tokenStep
  dsimp only
  split <;> rfl

theorem foldl_tokenStep_Lengths (minOcc : Int) :
    ∀ (ms : List (List Char)) (s : Stats),
      (ms.foldl (tokenStep minOcc) s).Lengths = s.Lengths := by
  intro ms
  induction ms with
  | nil => intro s; rfl
  | cons m rest ih => intro s; rw [List.foldl_cons, ih, tokenStep_Lengths]

theorem foldl_tokenStep_Complexity (minOcc : Int) :
    ∀ (ms : List (List Char)) (s : Stats),
      (ms.foldl (tokenStep minOcc) s).Complexity = s.Complexity := by
  intro ms
  induction ms with
  | nil => intro s; rfl
  | cons m rest ih => intro s; rw [List.foldl_cons, ih, tokenStep_Complexity]

theorem foldl_tokenStep_CrackedCount (minOcc : Int) :
    ∀ (ms : List (List Char)) (s : Stats),
      (ms.foldl (tokenStep minOcc) s).CrackedCount = s.CrackedCount := by
  intro ms
  induction ms with
  | nil => intro s; rfl
  | cons m rest ih => intro s; rw [List.foldl_cons, ih, tokenStep_CrackedCount]

/-- C10: for a non-blank password line, the key recorded in the length
histogram is the UTF-8 byte length of the line, while the pattern string
has one symbol per character; a line containing a multi-byte character
therefore records a length strictly larger than its character count and
its pattern length. -/
theorem length_histogram_records_utf8_bytes (minOcc : Int) (s : Stats)
    (line : List Char) (_hne : line ≠ []) :
    (processLine minOcc s line).Lengths = histIncr s.Lengths (utf8Len line) 1 ∧
    (line.map classifyChar).length = line.length ∧
    ((∃ c ∈ line, 0x80 ≤ c.toNat) → line.length < utf8Len line) := by
  refine ⟨?_, by simp, ?_⟩
  · unfold processLine
    rw [foldl_tokenStep_Lengths]
    rfl
  · rintro ⟨c, hc, hb⟩
    exact utf8Len_gt_of_multibyte line c hc hb

/-- Witness for C10 at the password `"abcdé"`: 5 characters, recorded
length 6 (the UTF-8 byte length), pattern of length 5. -/
theorem length_histogram_records_utf8_bytes_witness :
    (processLine 4 emptyStats (gs "abcdé")).Lengths = histIncr emptyStats.Lengths 6 1 ∧
    (gs "abcdé").length < utf8Len (gs "abcdé") := by
  have h := length_histogram_records_utf8_bytes 4 emptyStats (gs "abcdé") (by decide)
  exact ⟨h.1, h.2.2 ⟨'é', by decide, by decide⟩⟩

/-! ## Histogram lemmas and the scan invariants -/

theorem histSum_histIncr {K : Type} [DecidableEq K] (m : List (K × Int)) (k : K) (v : Int) :
    histSum (histIncr m k v) = histSum m + v := by
  induction m with
  | nil => simp [histIncr, histSum]
  | cons p rest ih =>
    unfold histIncr
    split_ifs with h
    · simp only [histSum, List.map_cons, List.sum_cons]
      ring
    · simp only [histSum, List.map_cons, List.sum_cons] at ih ⊢
      omega

theorem processLine_sums (minOcc : Int) (s : Stats) (line : List Char)
    (hL : histSum s.Lengths = s.CrackedCount)
    (hC : histSum s.Complexity = s.CrackedCount) :
    histSum (processLine minOcc s line).Lengths = (processLine minOcc s line).CrackedCount ∧
    histSum (processLine minOcc s line).Complexity = (processLine minOcc s line).CrackedCount := by
  unfold processLine
  rw [foldl_tokenStep_Lengths, foldl_tokenStep_Complexity, foldl_tokenStep_CrackedCount]
  dsimp only
  rw [histSum_histIncr, histSum_histIncr, hL, hC]
  exact ⟨rfl, rfl⟩

theorem foldl_scanStep_sums (minOcc : Int) :
    ∀ (lines : List (List Char)) (st : Stats × Nat),
      histSum st.1.Lengths = st.1.CrackedCount →
      histSum st.1.Complexity = st.1.CrackedCount →
      histSum (lines.foldl (scanStep minOcc) st).1.Lengths =
          (lines.foldl (scanStep minOcc) st).1.CrackedCount ∧
        histSum (lines.foldl (scanStep minOcc) st).1.Complexity =
          (lines.foldl (scanStep minOcc) st).1.CrackedCount := by
  intro lines
  induction lines with
  | nil => intro st h1 h2; exact ⟨h1, h2⟩
  | cons line rest ih =>
    intro st h1 h2
    rw [List.foldl_cons]
    unfold scanStep
    split_ifs with h
    · exact ih st h1 h2
    · have hp := processLine_sums minOcc st.1 line h1 h2
      exact ih _ hp.1 hp.2

/-- C6: for every password file, the length histogram and the complexity
histogram each sum to the cracked-password count: every non-blank line
increments all three by exactly one, and neither the token consolidation
nor the error path touches them. -/
theorem analyzePasswords_histogram_sums (minOcc : Int) (lines : List (List Char)) :
    histSum (analyzePasswords minOcc lines).1.Lengths =
        (analyzePasswords minOcc lines).1.CrackedCount ∧
      histSum (analyzePasswords minOcc lines).1.Complexity =
        (analyzePasswords minOcc lines).1.CrackedCount := by
  have h := foldl_scanStep_sums minOcc lines (emptyStats, 0) rfl rfl
  unfold analyzePasswords scanLines
  dsimp only
  split_ifs with hc
  · exact h
  · exact h

theorem foldl_scanStep_count (minOcc : Int) :
    ∀ (lines : List (List Char)) (st : Stats × Nat),
      (lines.foldl (scanStep minOcc) st).2 =
        st.2 + (lines.filter fun l => !l.isEmpty).length := by
  intro lines
  induction lines with
  | nil => intro st; simp
  | cons line rest ih =>
    intro st
    rw [List.foldl_cons]
    by_cases h : line = []
    · subst h
      have hstep : scanStep minOcc st [] = st := rfl
      rw [hstep, ih st]
      simp
    · have hstep : scanStep minOcc st line = (processLine minOcc st.1 line, st.2 + 1) := by
        unfold scanStep
        rw [if_neg h]
      rw [hstep, ih]
      have hcons : ((line :: rest).filter fun l => !l.isEmpty) =
          line :: (rest.filter fun l => !l.isEmpty) := by
        cases line with
        | nil => exact absurd rfl h
        | cons c cs => rfl
      rw [hcons]
      simp only [List.length_cons]
      omega

/-- C4 (amended): `AnalyzePasswords` returns the insufficient-data error
exactly when the file contains fewer than 2 non-blank lines. -/
theorem analyzePasswords_insufficient_iff (minOcc : Int) (lines : List (List Char)) :
    (analyzePasswords minOcc lines).2 = some insufficientMsg ↔
      (lines.filter fun l => !l.isEmpty).length < 2 := by
  have hc := foldl_scanStep_count minOcc lines (emptyStats, 0)
  unfold analyzePasswords scanLines
  dsimp only
  unfold scanLines at hc
  split_ifs with h
  · constructor
    · intro _
      omega
    · intro _
      rfl
  · constructor
    · intro hfalse
      exact absurd hfalse (by simp)
    · intro hlen
      exfalso
      omega

/-- C4 counterexample to the claim as stated: on a file with exactly one
non-blank line, `AnalyzePasswords` returns the insufficient-data error
together with the partially populated aggregate (cracked count 1, length
histogram `{3:1}`, reuse histogram `{"abc":1}`), not "no partial
aggregate statistics". -/
theorem insufficient_data_partial_aggregate_counterexample :
    (analyzePasswords 4 [gs "abc"]).2 = some insufficientMsg ∧
    (analyzePasswords 4 [gs "abc"]).1.CrackedCount = 1 ∧
    (analyzePasswords 4 [gs "abc"]).1.Lengths = [(3, 1)] ∧
    (analyzePasswords 4 [gs "abc"]).1.Mostreuse = [(gs "abc", 1)] := by
  decide

/-! ## The substring-absorption scan -/

theorem findIdxFrom_some {p : Nat → Bool} :
    ∀ {n j0 j : Nat}, findIdxFrom p n j0 = some j →
      p j = true ∧ j0 ≤ j ∧ j < j0 + n ∧ ∀ k, j0 ≤ k → k < j → p k = false := by
  intro n
  induction n with
  | zero => intro j0 j h; exact absurd h (by simp [findIdxFrom])
  | succ n ih =>
    intro j0 j h
    unfold findIdxFrom at h
    by_cases hp : p j0
    · rw [if_pos hp] at h
      cases h
      exact ⟨hp, Nat.le_refl _, by omega, fun k hk1 hk2 => absurd hk2 (by omega)⟩
    · rw [if_neg hp] at h
      obtain ⟨h1, h2, h3, h4⟩ := ih h
      refine ⟨h1, by omega, by omega, fun k hk1 hk2 => ?_⟩
      by_cases hk0 : k = j0
      · subst hk0
        simpa using hp
      · exact h4 k (by omega) hk2

theorem getD_set_ne {α : Type} [Inhabited α] :
    ∀ (l : List α) (j i : Nat) (x : α), i ≠ j →
      (l.set j x).getD i default = l.getD i default := by
  intro l
  induction l with
  | nil => intro j i x _; rfl
  | cons a l ih =>
    intro j i x h
    cases j with
    | zero =>
      cases i with
      | zero => exact absurd rfl h
      | succ i => rfl
    | succ j =>
      cases i with
      | zero => rfl
      | succ i => exact ih j i x fun he => h (by rw [he])

theorem msum_set :
    ∀ (st : List (Entry × Bool)) (j : Nat) (x : Entry × Bool), j < st.length →
      msum (st.set j x) = msum st - contribV (st.getD j default) + contribV x := by
  intro st
  induction st with
  | nil => intro j x h; simp at h
  | cons y st ih =>
    intro j x h
    cases j with
    | zero =>
      show msum (x :: st) = msum (y :: st) - contribV y + contribV x
      simp only [msum, List.map_cons, List.sum_cons]
      ring
    | succ j =>
      have hlt : j < st.length := by simpa using h
      show msum (y :: st.set j x) = msum (y :: st) - contribV (st.getD j default) + contribV x
      simp only [msum, List.map_cons, List.sum_cons]
      have hrec := ih j x hlt
      simp only [msum] at hrec
      rw [hrec]
      ring

theorem keysOf_set :
    ∀ (st : List (Entry × Bool)) (j : Nat) (x : Entry × Bool),
      x.1.Key = (st.getD j default).1.Key → keysOf (st.set j x) = keysOf st := by
  intro st
  induction st with
  | nil => intro j x _; rfl
  | cons y st ih =>
    intro j x h
    cases j with
    | zero =>
      have h' : x.1.Key = y.1.Key := h
      show x.1.Key :: keysOf st = y.1.Key :: keysOf st
      rw [h']
    | succ j =>
      have h' : x.1.Key = (st.getD j default).1.Key := h
      show y.1.Key :: keysOf (st.set j x) = y.1.Key :: keysOf st
      rw [ih j x h']

theorem contribV_false (x : Entry × Bool) (h : x.2 = false) : contribV x = x.1.Value := by
  simp [contribV, h]

theorem contribV_true (x : Entry × Bool) (h : x.2 = true) : contribV x = 0 := by
  simp [contribV, h]

theorem mergeStep_length (st : List (Entry × Bool)) (i : Nat) :
    (mergeStep st i).length = st.length := by
  unfold mergeStep
  dsimp only
  split_ifs with h
  · rfl
  · cases hf : findTarget st i with
    | none => simp
    | some j => simp [List.length_set]

theorem mergeStep_msum (st : List (Entry × Bool)) (i : Nat) (hi : i < st.length) :
    msum (mergeStep st i) = msum st := by
  unfold mergeStep
  dsimp only
  split_ifs with hflag
  · rfl
  · cases hf : findTarget st i with
    | none => rfl
    | some j =>
      have hspec := findIdxFrom_some
        (show findIdxFrom (targetPred st i) st.length 0 = some j from hf)
      obtain ⟨hp, -, hjlt, -⟩ := hspec
      have hj : j < st.length := by omega
      unfold targetPred at hp
      rw [Bool.and_eq_true, Bool.and_eq_true] at hp
      obtain ⟨⟨hne, hfj⟩, hcont⟩ := hp
      have hji : j ≠ i := by simpa using hne
      have hfj' : (st.getD j default).2 = false := by simpa using hfj
      have hfi' : (st.getD i default).2 = false := by simpa using hflag
      have e1 := msum_set st j (mergedCell st i j) hj
      have e2 := msum_set (st.set j (mergedCell st i j)) i
        (((st.set j (mergedCell st i j)).getD i default).1, true)
        (by rw [List.length_set]; exact hi)
      rw [e2, e1]
      rw [getD_set_ne st j i _ fun he => hji he.symm]
      rw [contribV_true ((st.getD i default).1, true) rfl,
        contribV_false (st.getD i default) hfi',
        contribV_false (st.getD j default) hfj',
        contribV_false (mergedCell st i j) hfj']
      show msum st - (st.getD j default).1.Value +
          ((st.getD j default).1.Value + (st.getD i default).1.Value) -
          (st.getD i default).1.Value + 0 = msum st
      ring

theorem mergeStep_keys (st : List (Entry × Bool)) (i : Nat) :
    keysOf (mergeStep st i) = keysOf st := by
  unfold mergeStep
  dsimp only
  split_ifs with h
  · rfl
  · cases hf : findTarget st i with
    | none => rfl
    | some j =>
      have k1 := keysOf_set (st.set j (mergedCell st i j)) i
        (((st.set j (mergedCell st i j)).getD i default).1, true) rfl
      have k2 := keysOf_set st j (mergedCell st i j) rfl
      rw [k1, k2]

theorem foldl_mergeStep_length :
    ∀ (idxs : List Nat) (st : List (Entry × Bool)),
      (idxs.foldl mergeStep st).length = st.length := by
  intro idxs
  induction idxs with
  | nil => intro st; rfl
  | cons i rest ih => intro st; rw [List.foldl_cons, ih, mergeStep_length]

theorem foldl_mergeStep_msum :
    ∀ (idxs : List Nat) (st : List (Entry × Bool)),
      (∀ i ∈ idxs, i < st.length) → msum (idxs.foldl mergeStep st) = msum st := by
  intro idxs
  induction idxs with
  | nil => intro st _; rfl
  | cons i rest ih =>
    intro st h
    rw [List.foldl_cons]
    have hb : ∀ k ∈ rest, k < (mergeStep st i).length := by
      rw [mergeStep_length]
      exact fun k hk => h k (List.mem_cons_of_mem _ hk)
    rw [ih _ hb, mergeStep_msum st i (h i (List.mem_cons_self i rest))]

theorem foldl_mergeStep_keys :
    ∀ (idxs : List Nat) (st : List (Entry × Bool)),
      keysOf (idxs.foldl mergeStep st) = keysOf st := by
  intro idxs
  induction idxs with
  | nil => intro st; rfl
  | cons i rest ih => intro st; rw [List.foldl_cons, ih, mergeStep_keys]

theorem msum_eq_filter (st : List (Entry × Bool)) :
    msum st = ((((st.filter fun x => !x.2).map fun x => x.1).map Entry.Value)).sum := by
  induction st with
  | nil => rfl
  | cons y st ih =>
    cases hy : y.2 with
    | false =>
      have hc : contribV y = y.1.Value := contribV_false y hy
      simp [msum, List.filter_cons, hy, hc] at ih ⊢
      exact ih
    | true =>
      have hc : contribV y = 0 := contribV_true y hy
      simp [msum, List.filter_cons, hy, hc] at ih ⊢
      exact ih

theorem msum_init (l : List Entry) : msum (l.map fun e => (e, false)) = valsum l := by
  induction l with
  | nil => rfl
  | cons e l ih =>
    have hc : contribV (e, false) = e.Value := contribV_false (e, false) rfl
    simp [msum, valsum, hc] at ih ⊢
    exact ih

theorem keysOf_init (l : List Entry) : keysOf (l.map fun e => (e, false)) = l.map Entry.Key := by
  simp [keysOf, List.map_map]

theorem mergeIntoSmaller_valsum (entities : List Entry) :
    valsum (MergeIntoSmaller entities) = valsum entities := by
  unfold MergeIntoSmaller
  dsimp only
  rw [valsum, ← msum_eq_filter, foldl_mergeStep_msum, msum_init]
  intro i hi
  exact List.mem_range.mp hi

theorem mergeIntoSmaller_keys_sublist (entities : List Entry) :
    List.Sublist ((MergeIntoSmaller entities).map Entry.Key) (entities.map Entry.Key) := by
  unfold MergeIntoSmaller
  dsimp only
  rw [List.map_map]
  have hk : List.map (Entry.Key ∘ fun x : Entry × Bool => x.1)
      ((List.range (entities.map fun e => (e, false)).length).foldl mergeStep
        (entities.map fun e => (e, false))) = entities.map Entry.Key := by
    have h0 : List.map (Entry.Key ∘ fun x : Entry × Bool => x.1)
        ((List.range (entities.map fun e => (e, false)).length).foldl mergeStep
          (entities.map fun e => (e, false))) = keysOf
        ((List.range (entities.map fun e => (e, false)).length).foldl mergeStep
          (entities.map fun e => (e, false))) := rfl
    rw [h0, foldl_mergeStep_keys, keysOf_init]
  rw [← hk]
  exact List.Sublist.map _ (List.filter_sublist _)

theorem mergeIntoSmaller_keys_nodup (entities : List Entry)
    (h : (entities.map Entry.Key).Nodup) :
    ((MergeIntoSmaller entities).map Entry.Key).Nodup :=
  List.Nodup.sublist (mergeIntoSmaller_keys_sublist entities) h

/-! ## Sorting, re-aggregation and the rebuild -/

theorem insertDesc_perm (e : Entry) : ∀ l : List Entry, (insertDesc e l).Perm (e :: l) := by
  intro l
  induction l with
  | nil => exact List.Perm.refl _
  | cons x xs ih =>
    unfold insertDesc
    split_ifs with h
    · exact List.Perm.refl _
    · exact (List.Perm.cons x ih).trans (List.Perm.swap e x xs)

theorem sortByValueDesc_perm (l : List Entry) : (sortByValueDesc l).Perm l := by
  induction l with
  | nil => exact List.Perm.refl _
  | cons e l ih =>
    show (insertDesc e (sortByValueDesc l)).Perm (e :: l)
    exact (insertDesc_perm e _).trans (List.Perm.cons e ih)

theorem sortMap_valsum (m : List (List Char × Int)) :
    valsum (SortMapByValueDesc m) = histSum m := by
  unfold SortMapByValueDesc valsum histSum
  rw [List.Perm.sum_eq (List.Perm.map Entry.Value (sortByValueDesc_perm _))]
  rw [List.map_map]
  rfl

theorem sortMap_keys_perm (m : List (List Char × Int)) :
    ((SortMapByValueDesc m).map Entry.Key).Perm (m.map Prod.fst) := by
  unfold SortMapByValueDesc
  refine (List.Perm.map Entry.Key (sortByValueDesc_perm _)).trans ?_
  rw [List.map_map]
  exact List.Perm.refl _

theorem sortMap_keys_nodup (m : List (List Char × Int)) (h : (m.map Prod.fst).Nodup) :
    ((SortMapByValueDesc m).map Entry.Key).Nodup :=
  (List.Perm.nodup_iff (sortMap_keys_perm m)).mpr h

theorem mem_keys_histIncr {K : Type} [DecidableEq K] (m : List (K × Int)) (k a : K) (v : Int) :
    a ∈ (histIncr m k v).map Prod.fst ↔ a ∈ m.map Prod.fst ∨ a = k := by
  induction m with
  | nil => simp [histIncr]
  | cons p rest ih =>
    obtain ⟨k', v'⟩ := p
    simp only [histIncr]
    split_ifs with h
    · subst h
      simp only [List.map_cons, List.mem_cons]
      tauto
    · simp only [List.map_cons, List.mem_cons, ih]
      tauto

theorem nodup_histIncr {K : Type} [DecidableEq K] (m : List (K × Int)) (k : K) (v : Int)
    (h : (m.map Prod.fst).Nodup) : ((histIncr m k v).map Prod.fst).Nodup := by
  induction m with
  | nil => simp [histIncr]
  | cons p rest ih =>
    obtain ⟨k', v'⟩ := p
    simp only [histIncr]
    split_ifs with he
    · simpa using h
    · simp only [List.map_cons, List.nodup_cons] at h ⊢
      obtain ⟨hk', hrest⟩ := h
      refine ⟨?_, ih hrest⟩
      intro hmem
      rw [mem_keys_histIncr] at hmem
      cases hmem with
      | inl hh => exact hk' hh
      | inr hh => exact he hh

theorem truncStep_sum (minOcc : Int) (acc : List (List Char × Int)) (p : List Char × Int) :
    histSum (truncStep minOcc acc p) = histSum acc + p.2 := by
  unfold truncStep
  dsimp only
  split_ifs <;> rw [histSum_histIncr]

theorem truncStep_nodup (minOcc : Int) (acc : List (List Char × Int)) (p : List Char × Int)
    (h : (acc.map Prod.fst).Nodup) : ((truncStep minOcc acc p).map Prod.fst).Nodup := by
  unfold truncStep
  dsimp only
  split_ifs <;> exact nodup_histIncr _ _ _ h

theorem foldl_truncStep_sum (minOcc : Int) :
    ∀ (m acc : List (List Char × Int)),
      histSum (m.foldl (truncStep minOcc) acc) = histSum acc + histSum m := by
  intro m
  induction m with
  | nil => intro acc; simp [histSum]
  | cons p rest ih =>
    intro acc
    rw [List.foldl_cons, ih, truncStep_sum]
    simp only [histSum, List.map_cons, List.sum_cons]
    ring

theorem foldl_truncStep_nodup (minOcc : Int) :
    ∀ (m acc : List (List Char × Int)), (acc.map Prod.fst).Nodup →
      ((m.foldl (truncStep minOcc) acc).map Prod.fst).Nodup := by
  intro m
  induction m with
  | nil => intro acc h; exact h
  | cons p rest ih =>
    intro acc h
    rw [List.foldl_cons]
    exact ih _ (truncStep_nodup minOcc acc p h)

theorem truncAgg_sum (minOcc : Int) (m : List (List Char × Int)) :
    histSum (truncAgg minOcc m) = histSum m := by
  unfold truncAgg
  rw [foldl_truncStep_sum]
  simp [histSum]

theorem truncAgg_nodup (minOcc : Int) (m : List (List Char × Int)) :
    ((truncAgg minOcc m).map Prod.fst).Nodup :=
  foldl_truncStep_nodup minOcc m [] (by simp)

theorem histSet_not_mem {K : Type} [DecidableEq K] :
    ∀ (m : List (K × Int)) (k : K) (v : Int), k ∉ m.map Prod.fst →
      histSet m k v = m ++ [(k, v)] := by
  intro m
  induction m with
  | nil => intro k v _; rfl
  | cons p rest ih =>
    intro k v h
    obtain ⟨k', v'⟩ := p
    simp only [List.map_cons, List.mem_cons] at h
    push_neg at h
    simp only [histSet]
    rw [if_neg fun he => h.1 he.symm, ih k v h.2]
    rfl

theorem rebuild_sum_aux :
    ∀ (entries : List Entry) (acc : List (List Char × Int)),
      (entries.map Entry.Key).Nodup →
      (∀ e ∈ entries, e.Key ∉ acc.map Prod.fst) →
      histSum (entries.foldl (fun a e => histSet a e.Key e.Value) acc) =
        histSum acc + valsum entries := by
  intro entries
  induction entries with
  | nil => intro acc _ _; simp [valsum]
  | cons e rest ih =>
    intro acc h1 h2
    rw [List.foldl_cons,
      histSet_not_mem acc e.Key e.Value (h2 e (List.mem_cons_self e rest))]
    simp only [List.map_cons, List.nodup_cons] at h1
    have hrest : ∀ e' ∈ rest, e'.Key ∉ (acc ++ [(e.Key, e.Value)]).map Prod.fst := by
      intro e' he'
      simp only [List.map_append, List.mem_append, List.map_cons, List.map_nil,
        List.mem_singleton]
      rintro (hmem | hmem)
      · exact h2 e' (List.mem_cons_of_mem _ he') hmem
      · exact h1.1 (hmem ▸ List.mem_map_of_mem Entry.Key he')
    rw [ih _ h1.2 hrest]
    simp only [histSum, valsum, List.map_append, List.sum_append, List.map_cons,
      List.map_nil, List.sum_cons, List.sum_nil]
    ring

theorem rebuild_sum (entries : List Entry) (h : (entries.map Entry.Key).Nodup) :
    histSum (rebuild entries) = valsum entries := by
  unfold rebuild
  rw [rebuild_sum_aux entries [] h (by simp)]
  simp [histSum]

/-- C7: consolidation preserves total count mass: whichever strategy is
selected, the rebuilt token histogram has the same total count as the
pre-consolidation histogram (whose keys, coming from a Go map, are
distinct). -/
theorem consolidate_preserves_mass (minOcc : Int) (m : List (List Char × Int))
    (h : (m.map Prod.fst).Nodup) : histSum (consolidate minOcc m) = histSum m := by
  unfold consolidate
  dsimp only
  split_ifs with hsel
  · rw [rebuild_sum _ (mergeIntoSmaller_keys_nodup _ (sortMap_keys_nodup _
      (truncAgg_nodup minOcc m)))]
    rw [mergeIntoSmaller_valsum, sortMap_valsum, truncAgg_sum]
  · rw [rebuild_sum _ (mergeIntoSmaller_keys_nodup _ (sortMap_keys_nodup _ h))]
    rw [mergeIntoSmaller_valsum, sortMap_valsum]

/-- Witness for C7 on the histogram `{"abcd": 2, "xabcdy": 1}`, where
Strategy A merges the extended token into its root. -/
theorem consolidate_preserves_mass_witness :
    (([(gs "abcd", (2 : Int)), (gs "xabcdy", 1)].map Prod.fst).Nodup) ∧
    histSum (consolidate 4 [(gs "abcd", (2 : Int)), (gs "xabcdy", 1)]) =
      histSum [(gs "abcd", (2 : Int)), (gs "xabcdy", 1)] :=
  ⟨by decide, consolidate_preserves_mass 4 _ (by decide)⟩

/-! ## The direction and the skip discipline of the substring absorption -/

/-- C1 counterexample to the claim as stated: on the count-ranked list
`[("abcd",5), ("abcde",3)]`, entry 0's key `"abcd"` is an unbroken
substring of entry 1's key `"abcde"`, yet entry 0 is not absorbed into
entry 1: the scan instead absorbs entry 1 (whose key contains entry 0's
key) into entry 0, leaving `[("abcd",8)]` and no `"abcde"` entry. -/
theorem mergeIntoSmaller_substring_direction_counterexample :
    goContains (gs "abcde") (gs "abcd") = true ∧
    MergeIntoSmaller [⟨gs "abcd", 5⟩, ⟨gs "abcde", 3⟩] = [⟨gs "abcd", 8⟩] := by
  decide

/-- C1 (amended): during the scan, an unabsorbed entry `i` merges into
the first eligible entry `j` whose key is contained in entry `i`'s key
(`strings.Contains(entities[i].Key, entities[j].Key)`): `i`'s count is
added to `j`'s count and `i` is marked skipped, hence dropped from the
result. -/
theorem mergeStep_absorbs_into_contained (st : List (Entry × Bool)) (i j : Nat)
    (hflag : (st.getD i default).2 = false) (hfind : findTarget st i = some j) :
    goContains ((st.getD i default).1.Key) ((st.getD j default).1.Key) = true ∧
    j ≠ i ∧ (st.getD j default).2 = false ∧
    (∀ k, k < j → targetPred st i k = false) ∧
    mergeStep st i =
      (st.set j (⟨(st.getD j default).1.Key,
          (st.getD j default).1.Value + (st.getD i default).1.Value⟩, false)).set i
        ((st.getD i default).1, true) := by
  have hspec := findIdxFrom_some
    (show findIdxFrom (targetPred st i) st.length 0 = some j from hfind)
  obtain ⟨hp, -, -, hmin⟩ := hspec
  have hp' := hp
  unfold targetPred at hp'
  rw [Bool.and_eq_true, Bool.and_eq_true] at hp'
  obtain ⟨⟨hne, hfj⟩, hcont⟩ := hp'
  have hji : j ≠ i := by simpa using hne
  have hfj' : (st.getD j default).2 = false := by simpa using hfj
  refine ⟨hcont, hji, hfj', fun k hk => hmin k (Nat.zero_le k) hk, ?_⟩
  unfold mergeStep
  rw [if_neg (show ¬(st.getD i default).2 = true by rw [hflag]; exact Bool.false_ne_true)]
  rw [hfind]
  dsimp only
  rw [getD_set_ne st j i _ fun he => hji he.symm]
  unfold mergedCell
  rw [hfj']

/-- Witness for C1's amended theorem: entry 0 (`"abcd"`, count 3)
contains entry 1's key `"bc"`, so entry 0 is absorbed into entry 1. -/
theorem mergeStep_absorbs_into_contained_witness :
    goContains (gs "abcd") (gs "bc") = true ∧
    mergeStep [(⟨gs "abcd", 3⟩, false), (⟨gs "bc", 2⟩, false)] 0 =
      [(⟨gs "abcd", 3⟩, true), (⟨gs "bc", 5⟩, false)] := by
  have h := mergeStep_absorbs_into_contained
    [(⟨gs "abcd", 3⟩, false), (⟨gs "bc", 2⟩, false)] 0 1 rfl (by decide)
  refine ⟨h.1, ?_⟩
  rw [h.2.2.2.2]
  decide

/-- C2 counterexample to the claim as stated: on the count-ranked list
`[("abcd",5), ("bc",4), ("zabcdz",3)]`, entry 0 is absorbed in the first
outer iteration (into `"bc"`), and the later entry 2's key `"zabcdz"`
contains the absorbed entry's key `"abcd"`; yet entry 2 is not merged
into the absorbed entry 0 — the skip flag bars entry 0 as a target and
entry 2 merges into entry 1 instead, leaving `[("bc",12)]`. -/
theorem absorbed_entry_not_target_counterexample :
    ((([0, 1] : List Nat).foldl mergeStep
        ([⟨gs "abcd", 5⟩, ⟨gs "bc", 4⟩, ⟨gs "zabcdz", 3⟩].map fun e =>
          (e, false))).getD 0 default).2 = true ∧
    goContains (gs "zabcdz") (gs "abcd") = true ∧
    findTarget (([0, 1] : List Nat).foldl mergeStep
        ([⟨gs "abcd", 5⟩, ⟨gs "bc", 4⟩, ⟨gs "zabcdz", 3⟩].map fun e => (e, false))) 2 =
      some 1 ∧
    MergeIntoSmaller [⟨gs "abcd", 5⟩, ⟨gs "bc", 4⟩, ⟨gs "zabcdz", 3⟩] = [⟨gs "bc", 12⟩] := by
  decide

/-- C2 (amended): once an entry has been absorbed it is used neither as a
source nor as a target again: the inner loop never selects a skipped
entry as a merge target, and the outer loop leaves a skipped entry's
iteration a no-op. -/
theorem absorbed_entries_excluded (st : List (Entry × Bool)) (i j : Nat) :
    (findTarget st i = some j → (st.getD j default).2 = false) ∧
    ((st.getD i default).2 = true → mergeStep st i = st) := by
  constructor
  · intro hfind
    have hspec := findIdxFrom_some
      (show findIdxFrom (targetPred st i) st.length 0 = some j from hfind)
    have hp := hspec.1
    unfold targetPred at hp
    rw [Bool.and_eq_true, Bool.and_eq_true] at hp
    simpa using hp.1.2
  · intro hflag
    unfold mergeStep
    rw [if_pos hflag]

/-- Witness for C2's amended theorem: a selected target has its skip flag
unset, and a skipped source leaves the state unchanged. -/
theorem absorbed_entries_excluded_witness :
    ((([(⟨gs "ab", 1⟩, false), (⟨gs "xaby", 2⟩, false)] :
        List (Entry × Bool)).getD 0 default).2 = false) ∧
    mergeStep [(⟨gs "cd", 7⟩, true)] 0 = [(⟨gs "cd", 7⟩, true)] :=
  ⟨(absorbed_entries_excluded [(⟨gs "ab", 1⟩, false), (⟨gs "xaby", 2⟩, false)] 1 0).1
      (by decide),
   (absorbed_entries_excluded [(⟨gs "cd", 7⟩, true)] 0 0).2 rfl⟩

/-- C3: `getMaxCount` contradicts its own documentation ("returns the
highest Value among a slice of Entry") once `MergeIntoSmaller` has broken
the descending order: on the token histogram
`{"zzzzz":6, "worda":5, "xwordx":4, "ywordy":3}` with minimum length 4,
Strategy B's surviving entries are `[("zzzzz",6), ("word",12)]` with
maximum count 12, but `getMaxCount` reports 6, so the selection keeps
Strategy A (maximum 6) even though the spec's max-based rule would keep
Strategy B, and the two results differ. -/
theorem selection_compares_first_not_max :
    (maxValueSpec (MergeIntoSmaller (SortMapByValueDesc (truncAgg 4
        [(gs "zzzzz", (6 : Int)), (gs "worda", 5), (gs "xwordx", 4), (gs "ywordy", 3)]))) =
      12) ∧
    (getMaxCount (MergeIntoSmaller (SortMapByValueDesc (truncAgg 4
        [(gs "zzzzz", (6 : Int)), (gs "worda", 5), (gs "xwordx", 4), (gs "ywordy", 3)]))) =
      6) ∧
    (maxValueSpec (MergeIntoSmaller (SortMapByValueDesc
        [(gs "zzzzz", (6 : Int)), (gs "worda", 5), (gs "xwordx", 4), (gs "ywordy", 3)])) =
      6) ∧
    (consolidate 4 [(gs "zzzzz", (6 : Int)), (gs "worda", 5), (gs "xwordx", 4),
        (gs "ywordy", 3)] =
      rebuild (MergeIntoSmaller (SortMapByValueDesc
        [(gs "zzzzz", (6 : Int)), (gs "worda", 5), (gs "xwordx", 4), (gs "ywordy", 3)]))) ∧
    rebuild (MergeIntoSmaller (SortMapByValueDesc
        [(gs "zzzzz", (6 : Int)), (gs "worda", 5), (gs "xwordx", 4), (gs "ywordy", 3)])) ≠
      rebuild (MergeIntoSmaller (SortMapByValueDesc (truncAgg 4
        [(gs "zzzzz", (6 : Int)), (gs "worda", 5), (gs "xwordx", 4), (gs "ywordy", 3)]))) := by
  decide

end PassTek
